import Mathlib

/-!
Verification of the rate-limiting core of the `bullish` venue module.

The available source (`src/venues/src/bullish/mod.rs`) is a module index: it
re-exports `EndpointType`, `RateLimit`, `RateLimitError`, `RateLimiter` from the
sibling file `rate_limit.rs` and the error types from `errors.rs`, and defines
the alias `RestResult<T> = Result<T, Errors>`.  The bodies of `rate_limit.rs`
and `errors.rs` are not available, so the rate-limiting engine below is
modelled from the specification (sliding-window accounting, §4.2–§4.4 of the
spec), while `RestResult` is embedded directly from the source line.

Timestamps and durations are in milliseconds, represented as `Nat` (the spec
requires a monotonic clock, so times never go backwards).
-/

/-- Modelled from the spec: `EndpointType` (defined in the missing
`rate_limit.rs`, re-exported by `mod.rs`).  A closed enumeration of request
categories; the spec names public market data, order placement, order
cancellation and account/trading queries as examples. -/
inductive EndpointType where
  | publicMarketData
  | orderPlacement
  | orderCancellation
  | accountQuery
deriving DecidableEq, Repr

/-- Modelled from the spec: `RateLimit` (missing `rate_limit.rs`), the
per-category configuration: capacity (maximum permitted units in a window) and
window duration in milliseconds.  Spec invariant: capacity > 0, window > 0. -/
structure RateLimit where
  capacity : Nat
  windowMs : Nat
deriving DecidableEq, Repr

/-- Modelled from the spec: `RateLimitError` (missing `rate_limit.rs`), a typed
denial report: the denied category, the requested cost, the retry delay, and a
flag distinguishing a permanently unsatisfiable request (cost exceeds capacity)
from temporary exhaustion. -/
structure RateLimitError where
  endpointType : EndpointType
  requestedCost : Nat
  retryAfterMs : Nat
  permanent : Bool
deriving DecidableEq, Repr

/-- Modelled from the spec: the outcome of `QuotaTracker::try_consume`
(`Admitted | Denied(retry_after)`, with the permanent-denial flag of §4.4). -/
inductive ConsumeResult where
  | Admitted
  | Denied (retryAfterMs : Nat) (permanent : Bool)
deriving DecidableEq, Repr

/-- Modelled from the spec: `QuotaTracker` state (missing `rate_limit.rs`):
the per-category configuration plus the log of consumption entries
`(timestamp, cost)` within the current window, oldest first. -/
structure QuotaTracker where
  config : RateLimit
  entries : List (Nat × Nat)
deriving DecidableEq, Repr

/-- Total cost of a list of consumption entries. -/
def sumCosts : List (Nat × Nat) → Nat
  | [] => 0
  | e :: rest => e.2 + sumCosts rest

/-- The entries still inside the sliding window at time `now`: an entry made at
time `t` ages out exactly when `now` reaches `t + window`. -/
def liveAt (w now : Nat) (l : List (Nat × Nat)) : List (Nat × Nat) :=
  l.filter fun e => decide (now < e.1 + w)

/-- Modelled from the spec: the earliest absolute time at which enough of the
oldest window entries will have aged out for a request of `cost` to fit
(spec §4.2 step 3: "time until oldest entry expires"). -/
def retryTime (cost capacity w : Nat) : List (Nat × Nat) → Nat
  | [] => 0
  | (t, _) :: rest =>
      if sumCosts rest + cost ≤ capacity then t + w
      else retryTime cost capacity w rest

/-- Modelled from the spec: `QuotaTracker::try_consume(cost, now)` (missing
`rate_limit.rs`), sliding-window accounting per spec §4.2:
cost 0 is a no-op admission; cost greater than capacity is a permanent denial;
otherwise entries older than the window are evicted, the request is admitted
and recorded if it fits, and denied with the time until it would fit
otherwise. -/
def tryConsume (tr : QuotaTracker) (cost now : Nat) : ConsumeResult × QuotaTracker :=
  if cost = 0 then
    (.Admitted, tr)
  else if tr.config.capacity < cost then
    (.Denied 0 true, tr)
  else
    let live := liveAt tr.config.windowMs now tr.entries
    if sumCosts live + cost ≤ tr.config.capacity then
      (.Admitted, { tr with entries := live ++ [(now, cost)] })
    else
      (.Denied (retryTime cost tr.config.capacity tr.config.windowMs live - now) false,
       { tr with entries := live })

/-- Run a sequence of `try_consume` calls, given as `(now, cost)` pairs,
returning the list of outcomes and the final tracker state. -/
def runCalls (tr : QuotaTracker) : List (Nat × Nat) → List ConsumeResult × QuotaTracker
  | [] => ([], tr)
  | (now, cost) :: rest =>
      let step := tryConsume tr cost now
      let next := runCalls step.2 rest
      (step.1 :: next.1, next.2)

/-- Modelled from the spec: `RateLimiter` (missing `rate_limit.rs`), owning one
`QuotaTracker` per `EndpointType`. -/
structure RateLimiter where
  trackers : EndpointType → QuotaTracker

/-- Modelled from the spec: the outcome of `RateLimiter::check_and_record`:
`Admitted | Denied(RateLimitError)`. -/
inductive CheckResult where
  | Admitted
  | Denied (e : RateLimitError)
deriving DecidableEq, Repr

/-- Modelled from the spec: `RateLimiter::check_and_record(endpoint_type, cost)`
(missing `rate_limit.rs`): looks up the category tracker, delegates to
`try_consume`, wraps a denial into a `RateLimitError`, and stores the mutated
tracker back; other categories are untouched. -/
def check_and_record (rl : RateLimiter) (et : EndpointType) (cost now : Nat) :
    CheckResult × RateLimiter :=
  let step := tryConsume (rl.trackers et) cost now
  let out : CheckResult :=
    match step.1 with
    | .Admitted => .Admitted
    | .Denied r p => .Denied ⟨et, cost, r, p⟩
  (out, ⟨Function.update rl.trackers et step.2⟩)

/-- Run a sequence of `check_and_record` calls, all against one category,
given as `(now, cost)` pairs; returns the final limiter state. -/
def runOpsOn (et : EndpointType) (rl : RateLimiter) : List (Nat × Nat) → RateLimiter
  | [] => rl
  | (now, cost) :: rest => runOpsOn et (check_and_record rl et cost now).2 rest

/-- `true` iff the outcome is an admission. -/
def isAdmitted : ConsumeResult → Bool
  | .Admitted => true
  | .Denied _ _ => false

/-- The sliding-window admissibility of a whole call schedule: walking the
calls `(now, cost)` in order while accumulating the full (unevicted) history,
at each call the total cost of history entries within the window ending at that
call (the call itself included) is at most `cap`.  This is the hypothesis
"total requested cost within any sliding window is at most the capacity". -/
def okPrefixes (w cap : Nat) (hist : List (Nat × Nat)) : List (Nat × Nat) → Bool
  | [] => true
  | (t, c) :: rest =>
      decide (sumCosts (liveAt w t (hist ++ [(t, c)])) ≤ cap) &&
      okPrefixes w cap (hist ++ [(t, c)]) rest

/-- Modelled from the spec: the venue API error type (missing `errors.rs`);
only its existence and re-export are visible in `mod.rs`. -/
structure ApiError where
  message : String
deriving DecidableEq, Repr

/-- Modelled from the spec: the venue error-response payload (missing
`errors.rs`). -/
structure ErrorResponse where
  message : String
deriving DecidableEq, Repr

/-- Modelled from the spec: `Errors` (missing `errors.rs`), the client's single
overall error enumeration; per spec §6 a rate-limit denial is one variant of
it, alongside transport and venue-returned API errors. -/
inductive Errors where
  | api (e : ApiError)
  | transport (msg : String)
  | rateLimitExceeded (e : RateLimitError)
deriving DecidableEq, Repr

/-- From the source (`mod.rs` line 24):
`pub type RestResult<T> = Result<T, Errors>;` — Rust's `Result<T, E>` is
`Except E T` in this embedding. -/
def RestResult (T : Type) : Type := Except Errors T

/- ### Basic lemmas -/

theorem sumCosts_append (l1 l2 : List (Nat × Nat)) :
    sumCosts (l1 ++ l2) = sumCosts l1 + sumCosts l2 := by
  induction l1 with
  | nil => simp [sumCosts]
  | cons e rest ih => simp [sumCosts, ih]; omega

theorem sumCosts_le_of_sublist {l1 l2 : List (Nat × Nat)} (h : List.Sublist l1 l2) :
    sumCosts l1 ≤ sumCosts l2 := by
  induction h with
  | slnil => exact Nat.le_refl 0
  | cons e _ ih => simp only [sumCosts]; omega
  | cons₂ e _ ih => simp only [sumCosts]; omega

theorem liveAt_sublist (w now : Nat) (l : List (Nat × Nat)) :
    List.Sublist (liveAt w now l) l :=
  List.filter_sublist l

theorem liveAt_mono_sublist (w now : Nat) {l1 l2 : List (Nat × Nat)}
    (h : List.Sublist l1 l2) : List.Sublist (liveAt w now l1) (liveAt w now l2) :=
  List.Sublist.filter _ h

theorem liveAt_eq_self (w now : Nat) (l : List (Nat × Nat))
    (h : ∀ e ∈ l, now < e.1 + w) : liveAt w now l = l := by
  unfold liveAt
  rw [List.filter_eq_self]
  intro e he
  exact decide_eq_true (h e he)

theorem liveAt_append (w now : Nat) (l1 l2 : List (Nat × Nat)) :
    liveAt w now (l1 ++ l2) = liveAt w now l1 ++ liveAt w now l2 :=
  List.filter_append l1 l2

theorem liveAt_cons (w now : Nat) (e : Nat × Nat) (l : List (Nat × Nat)) :
    liveAt w now (e :: l) =
      if now < e.1 + w then e :: liveAt w now l else liveAt w now l := by
  by_cases h : now < e.1 + w
  · simp [liveAt, List.filter_cons, h]
  · simp [liveAt, List.filter_cons, h]

theorem liveAt_mem_lt (w now : Nat) {l : List (Nat × Nat)} {e : Nat × Nat}
    (h : e ∈ liveAt w now l) : now < e.1 + w := by
  have := (List.mem_filter.mp h).2
  simpa using this

/- ### Properties of `retryTime` -/

/-- Every entry timestamp of `l` is at least `t0`, so the retry time is at
least `t0 + w`. -/
theorem retryTime_ge (cost cap w t0 : Nat) :
    ∀ l : List (Nat × Nat), cost ≤ cap → (∀ e ∈ l, t0 ≤ e.1) → l ≠ [] →
      t0 + w ≤ retryTime cost cap w l
  | [], _, _, h => absurd rfl h
  | (t, c) :: rest, hc, hall, _ => by
      unfold retryTime
      split
      · have : t0 ≤ t := hall (t, c) (List.mem_cons_self _ _)
        omega
      · rename_i hno
        have hrest : rest ≠ [] := by
          intro h
          subst h
          simp [sumCosts] at hno
          omega
        exact retryTime_ge cost cap w t0 rest hc
          (fun e he => hall e (List.mem_cons_of_mem _ he)) hrest

/-- If every entry is still live at `now`, the retry time lies strictly in the
future. -/
theorem lt_retryTime_of_live (cost cap w now : Nat) :
    ∀ l : List (Nat × Nat), cost ≤ cap → (∀ e ∈ l, now < e.1 + w) → l ≠ [] →
      now < retryTime cost cap w l
  | [], _, _, h => absurd rfl h
  | (t, c) :: rest, hc, hall, _ => by
      unfold retryTime
      split
      · exact hall (t, c) (List.mem_cons_self _ _)
      · rename_i hno
        have hrest : rest ≠ [] := by
          intro h
          subst h
          simp [sumCosts] at hno
          omega
        exact lt_retryTime_of_live cost cap w now rest hc
          (fun e he => hall e (List.mem_cons_of_mem _ he)) hrest

/-- At the computed retry time, the entries still inside the window leave room
for the request: the heart of the round-trip property. -/
theorem retryTime_fits (cost cap w : Nat) :
    ∀ l : List (Nat × Nat), List.Pairwise (fun a b => a.1 ≤ b.1) l → cost ≤ cap →
      sumCosts (liveAt w (retryTime cost cap w l) l) + cost ≤ cap
  | [], _, hc => by simpa [liveAt, sumCosts] using hc
  | (t, c) :: rest, hp, hc => by
      have hhead : ∀ e ∈ rest, t ≤ e.1 := (List.pairwise_cons.mp hp).1
      have hrestp : List.Pairwise (fun a b => a.1 ≤ b.1) rest :=
        (List.pairwise_cons.mp hp).2
      unfold retryTime
      split
      · rename_i hfit
        rw [liveAt_cons]
        have hdrop : ¬ (t + w < t + w) := by omega
        rw [if_neg hdrop]
        have hsub : sumCosts (liveAt w (t + w) rest) ≤ sumCosts rest :=
          sumCosts_le_of_sublist (liveAt_sublist w (t + w) rest)
        omega
      · rename_i hno
        have hrest : rest ≠ [] := by
          intro h
          subst h
          simp [sumCosts] at hno
          omega
        have hge : t + w ≤ retryTime cost cap w rest :=
          retryTime_ge cost cap w t rest hc hhead hrest
        rw [liveAt_cons]
        have hdrop : ¬ (retryTime cost cap w rest < t + w) := by omega
        rw [if_neg hdrop]
        exact retryTime_fits cost cap w rest hrestp hc

/- ### Claim theorems: easy cases first -/

/-- C7: a `try_consume` call with cost 0 is a no-op admission: it returns
`Admitted` and leaves the tracker state unchanged, for every window state. -/
theorem tryConsume_zero_cost_noop (tr : QuotaTracker) (now : Nat) :
    tryConsume tr 0 now = (.Admitted, tr) := by
  simp [tryConsume]

/-- C4: for every window state and every cost strictly greater than the
configured capacity, `try_consume` returns a permanent denial (the `permanent`
flag is set, distinguishing it from a temporary denial). -/
theorem tryConsume_over_capacity_permanent (tr : QuotaTracker) (cost now : Nat)
    (h : tr.config.capacity < cost) :
    tryConsume tr cost now = (.Denied 0 true, tr) := by
  have hne : cost ≠ 0 := by omega
  simp [tryConsume, hne, h]

theorem tryConsume_over_capacity_permanent_witness :
    (⟨3, 1000⟩ : RateLimit).capacity < 4 ∧
    tryConsume ⟨⟨3, 1000⟩, [(0, 2)]⟩ 4 17 = (.Denied 0 true, ⟨⟨3, 1000⟩, [(0, 2)]⟩) :=
  ⟨by decide, tryConsume_over_capacity_permanent ⟨⟨3, 1000⟩, [(0, 2)]⟩ 4 17 (by decide)⟩

/-- C5: a `try_consume` call with cost exactly equal to capacity, against a
tracker whose window is empty, returns `Admitted`. -/
theorem tryConsume_full_cost_on_empty_admitted (cfg : RateLimit) (now : Nat) :
    (tryConsume ⟨cfg, []⟩ cfg.capacity now).1 = .Admitted := by
  by_cases h : cfg.capacity = 0
  · simp [tryConsume, h]
  · simp [tryConsume, h, liveAt, sumCosts]

/-- C8: `try_consume` and `check_and_record` are total and every outcome is a
returned value: each call yields either `Admitted` or a `Denied` value (a
`RateLimitError` for the limiter), never any other effect. -/
theorem quota_denial_is_returned_value (tr : QuotaTracker) (rl : RateLimiter)
    (et : EndpointType) (cost now : Nat) :
    ((tryConsume tr cost now).1 = .Admitted ∨
      ∃ r p, (tryConsume tr cost now).1 = .Denied r p) ∧
    ((check_and_record rl et cost now).1 = .Admitted ∨
      ∃ e, (check_and_record rl et cost now).1 = .Denied e) := by
  constructor
  · cases h : (tryConsume tr cost now).1 with
    | Admitted => exact Or.inl rfl
    | Denied r p => exact Or.inr ⟨r, p, rfl⟩
  · cases h : (check_and_record rl et cost now).1 with
    | Admitted => exact Or.inl rfl
    | Denied e => exact Or.inr ⟨e, rfl⟩

/-- C9: with capacity 3, window 1000 ms, cost 1 per request, four requests at
t = 0, 10, 20, 30 ms: the first three are Admitted, the fourth is Denied with
retry_after 970 ms (the time until the first entry ages out of the window). -/
theorem example_scenario_three_admitted_fourth_denied_970 :
    (runCalls ⟨⟨3, 1000⟩, []⟩ [(0, 1), (10, 1), (20, 1), (30, 1)]).1 =
      [.Admitted, .Admitted, .Admitted, .Denied 970 false] := by
  decide

/-- C2: when a `try_consume` call with cost at most the capacity is denied,
the denial is temporary with retry_after strictly positive, and retrying the
same cost after exactly retry_after has elapsed, with no other consumption in
between, is admitted.  The tracker entries are assumed to be in timestamp
order, which every run under the spec's monotonic clock maintains. -/
theorem denied_retry_after_positive_and_retry_admitted
    (tr : QuotaTracker) (cost now r : Nat) (p : Bool)
    (hsorted : List.Pairwise (fun a b => a.1 ≤ b.1) tr.entries)
    (hcost : cost ≤ tr.config.capacity)
    (hres : (tryConsume tr cost now).1 = .Denied r p) :
    p = false ∧ 0 < r ∧
      (tryConsume (tryConsume tr cost now).2 cost (now + r)).1 = .Admitted := by
  by_cases hc0 : cost = 0
  · simp [tryConsume, hc0] at hres
  have hnotover : ¬ (tr.config.capacity < cost) := by omega
  by_cases hfit : sumCosts (liveAt tr.config.windowMs now tr.entries) + cost ≤
      tr.config.capacity
  · simp [tryConsume, hc0, hnotover, hfit] at hres
  · have hres2 := hres
    simp only [tryConsume, if_neg hc0, if_neg hnotover, if_neg hfit] at hres2
    have hr : retryTime cost tr.config.capacity tr.config.windowMs
        (liveAt tr.config.windowMs now tr.entries) - now = r ∧ false = p := by
      simpa [ConsumeResult.Denied.injEq] using hres2
    have hlive_all : ∀ e ∈ liveAt tr.config.windowMs now tr.entries,
        now < e.1 + tr.config.windowMs := fun e he => liveAt_mem_lt _ _ he
    have hlive_sorted : List.Pairwise (fun a b => a.1 ≤ b.1)
        (liveAt tr.config.windowMs now tr.entries) :=
      List.Pairwise.sublist (liveAt_sublist _ _ _) hsorted
    have hlive_ne : liveAt tr.config.windowMs now tr.entries ≠ [] := by
      intro h
      rw [h] at hfit
      simp [sumCosts] at hfit
      omega
    have hrt_gt : now < retryTime cost tr.config.capacity tr.config.windowMs
        (liveAt tr.config.windowMs now tr.entries) :=
      lt_retryTime_of_live cost tr.config.capacity tr.config.windowMs now _
        hcost hlive_all hlive_ne
    refine ⟨hr.2.symm, by omega, ?_⟩
    have hstate : (tryConsume tr cost now).2 =
        { tr with entries := liveAt tr.config.windowMs now tr.entries } := by
      simp only [tryConsume, if_neg hc0, if_neg hnotover, if_neg hfit]
    rw [hstate]
    have hnr : now + r = retryTime cost tr.config.capacity tr.config.windowMs
        (liveAt tr.config.windowMs now tr.entries) := by omega
    have hfits := retryTime_fits cost tr.config.capacity tr.config.windowMs
      (liveAt tr.config.windowMs now tr.entries) hlive_sorted hcost
    simp only [tryConsume, if_neg hc0]
    rw [if_neg hnotover]
    simp only [hnr]
    rw [if_pos hfits]

theorem denied_retry_after_positive_and_retry_admitted_witness :
    (1 ≤ (⟨3, 1000⟩ : RateLimit).capacity) ∧
    (tryConsume ⟨⟨3, 1000⟩, [(0, 1), (10, 1), (20, 1)]⟩ 1 30).1 = .Denied 970 false ∧
    (false = false ∧ 0 < 970 ∧
      (tryConsume (tryConsume ⟨⟨3, 1000⟩, [(0, 1), (10, 1), (20, 1)]⟩ 1 30).2
        1 (30 + 970)).1 = .Admitted) :=
  ⟨by decide, by decide,
    denied_retry_after_positive_and_retry_admitted
      ⟨⟨3, 1000⟩, [(0, 1), (10, 1), (20, 1)]⟩ 1 30 970 false
      (by decide) (by decide) (by decide)⟩

/-- Master induction for the all-admitted property: running any call schedule that `okPrefixes`
accepts (relative to a history list of which the tracker entries are a
sublist) admits every call.  The tracker's evicted log is always a sublist of
the full history, so the per-call window totals only shrink. -/
theorem allAdmitted_aux (w cap : Nat) (hw : 0 < w) :
    ∀ (cs hist entries : List (Nat × Nat)),
      List.Sublist entries hist →
      okPrefixes w cap hist cs = true →
      ∀ res ∈ (runCalls ⟨⟨cap, w⟩, entries⟩ cs).1, res = .Admitted := by
  intro cs
  induction cs with
  | nil =>
    intro hist entries _ _ res hres
    simp [runCalls] at hres
  | cons e rest ih =>
    obtain ⟨t, c⟩ := e
    intro hist entries hsub hok res hres
    rw [okPrefixes, Bool.and_eq_true] at hok
    have hok1 : sumCosts (liveAt w t (hist ++ [(t, c)])) ≤ cap := by
      have := hok.1
      simpa using this
    have hok2 : okPrefixes w cap (hist ++ [(t, c)]) rest = true := hok.2
    have hsub2 : List.Sublist (entries ++ [(t, c)]) (hist ++ [(t, c)]) :=
      List.Sublist.append hsub (List.Sublist.refl _)
    have hfit2 : sumCosts (liveAt w t (entries ++ [(t, c)])) ≤ cap :=
      le_trans (sumCosts_le_of_sublist (liveAt_mono_sublist w t hsub2)) hok1
    have hsplit : liveAt w t (entries ++ [(t, c)]) =
        liveAt w t entries ++ [(t, c)] := by
      rw [liveAt_append, liveAt_cons]
      have hlt : t < t + w := by omega
      rw [if_pos hlt]
      simp [liveAt]
    have hfit : sumCosts (liveAt w t entries) + c ≤ cap := by
      rw [hsplit, sumCosts_append] at hfit2
      simp [sumCosts] at hfit2
      omega
    by_cases hc0 : c = 0
    · have hstep : tryConsume ⟨⟨cap, w⟩, entries⟩ c t =
          (.Admitted, ⟨⟨cap, w⟩, entries⟩) := by
        simp [tryConsume, hc0]
      simp only [runCalls, hstep] at hres
      rcases List.mem_cons.mp hres with h | h
      · exact h
      · exact ih (hist ++ [(t, c)]) entries
          (hsub.trans (List.sublist_append_left hist [(t, c)])) hok2 res h
    · have hnotover : ¬ (cap < c) := by omega
      have hstep : tryConsume ⟨⟨cap, w⟩, entries⟩ c t =
          (.Admitted, ⟨⟨cap, w⟩, liveAt w t entries ++ [(t, c)]⟩) := by
        simp [tryConsume, hc0, hnotover, hfit]
      simp only [runCalls, hstep] at hres
      rcases List.mem_cons.mp hres with h | h
      · exact h
      · exact ih (hist ++ [(t, c)]) (liveAt w t entries ++ [(t, c)])
          (List.Sublist.append ((liveAt_sublist w t entries).trans hsub)
            (List.Sublist.refl _)) hok2 res h

/-- C1: for every sequence of `try_consume` calls on a single tracker whose
total requested cost within any sliding window is at most the configured
capacity (`okPrefixes` checks the trailing window at each call over the full
call history), every call returns `Admitted`. -/
theorem within_capacity_all_admitted (w cap : Nat) (cs : List (Nat × Nat))
    (hw : 0 < w) (hok : okPrefixes w cap [] cs = true) :
    ∀ res ∈ (runCalls ⟨⟨cap, w⟩, []⟩ cs).1, res = .Admitted :=
  allAdmitted_aux w cap hw cs [] [] (List.Sublist.refl _) hok

theorem within_capacity_all_admitted_witness :
    0 < 1000 ∧
    okPrefixes 1000 3 [] [(0, 1), (10, 2), (1010, 3)] = true ∧
    ∀ res ∈ (runCalls ⟨⟨3, 1000⟩, []⟩ [(0, 1), (10, 2), (1010, 3)]).1,
      res = .Admitted :=
  ⟨by decide, by decide,
    within_capacity_all_admitted 1000 3 [(0, 1), (10, 2), (1010, 3)]
      (by decide) (by decide)⟩

theorem sumCosts_eq_length {es : List (Nat × Nat)} (h : ∀ e ∈ es, e.2 = 1) :
    sumCosts es = es.length := by
  induction es with
  | nil => rfl
  | cons e rest ih =>
    have he : e.2 = 1 := h e (List.mem_cons_self _ _)
    simp only [sumCosts, List.length_cons, he,
      ih fun x hx => h x (List.mem_cons_of_mem _ hx)]
    omega

theorem runCalls_length (cs : List (Nat × Nat)) :
    ∀ tr : QuotaTracker, (runCalls tr cs).1.length = cs.length := by
  induction cs with
  | nil => intro tr; rfl
  | cons e rest ih =>
    intro tr
    obtain ⟨n, c⟩ := e
    simp only [runCalls, List.length_cons, ih]

theorem countP_admitted_split (l : List ConsumeResult) :
    l.countP isAdmitted + l.countP (fun r => ! isAdmitted r) = l.length := by
  induction l with
  | nil => rfl
  | cons a rest ih =>
    cases h : isAdmitted a <;> simp [List.countP_cons, h] <;> omega

/-- Master induction for the admitted-count property: starting from a tracker already holding
`es.length ≤ C` cost-1 entries, a schedule of cost-1 calls whose times are all
mutually within one window admits exactly `min N (C - es.length)` of them. -/
theorem cost1_admitted_count (C w : Nat) (hC : 0 < C) :
    ∀ (ts : List Nat) (es : List (Nat × Nat)),
      (∀ e ∈ es, e.2 = 1) →
      (∀ e ∈ es, ∀ t ∈ ts, t < e.1 + w) →
      (∀ t ∈ ts, ∀ t2 ∈ ts, t < t2 + w) →
      es.length ≤ C →
      ((runCalls ⟨⟨C, w⟩, es⟩ (ts.map fun t => (t, 1))).1.countP isAdmitted) =
        min ts.length (C - es.length) := by
  intro ts
  induction ts with
  | nil =>
    intro es _ _ _ _
    simp [runCalls]
  | cons t rest ih =>
    intro es hcost1 hfuture hwin hlen
    have hsum : sumCosts es = es.length := sumCosts_eq_length hcost1
    have hlive : liveAt w t es = es :=
      liveAt_eq_self w t es fun e he => hfuture e he t (List.mem_cons_self _ _)
    have hone : (1 : Nat) ≠ 0 := by omega
    have hnotover : ¬ (C < 1) := by omega
    by_cases hk : es.length + 1 ≤ C
    · have hstep : tryConsume ⟨⟨C, w⟩, es⟩ 1 t =
          (.Admitted, ⟨⟨C, w⟩, es ++ [(t, 1)]⟩) := by
        have hfit : sumCosts es + 1 ≤ C := by omega
        simp [tryConsume, hone, hnotover, hlive, hfit]
      have hrec := ih (es ++ [(t, 1)])
        (by
          intro e he
          rcases List.mem_append.mp he with h | h
          · exact hcost1 e h
          · simp at h; simp [h])
        (by
          intro e he t2 ht2
          rcases List.mem_append.mp he with h | h
          · exact hfuture e h t2 (List.mem_cons_of_mem _ ht2)
          · simp at h
            subst h
            exact hwin t2 (List.mem_cons_of_mem _ ht2) t (List.mem_cons_self _ _))
        (by
          intro a ha b hb
          exact hwin a (List.mem_cons_of_mem _ ha) b (List.mem_cons_of_mem _ hb))
        (by simp; omega)
      simp only [List.map_cons, runCalls, hstep, List.countP_cons] at *
      rw [hrec]
      simp [isAdmitted, List.length_append]
      omega
    · have heq : es.length = C := by omega
      have hnofit : ¬ (sumCosts es + 1 ≤ C) := by omega
      have hstep : tryConsume ⟨⟨C, w⟩, es⟩ 1 t =
          (.Denied (retryTime 1 C w es - t) false, ⟨⟨C, w⟩, es⟩) := by
        simp [tryConsume, hone, hnotover, hlive, hnofit]
      have hrec := ih es hcost1
        (fun e he t2 ht2 => hfuture e he t2 (List.mem_cons_of_mem _ ht2))
        (fun a ha b hb =>
          hwin a (List.mem_cons_of_mem _ ha) b (List.mem_cons_of_mem _ hb))
        hlen
      simp only [List.map_cons, runCalls, hstep, List.countP_cons] at *
      rw [hrec]
      simp [isAdmitted, heq]

/-- C3: with every per-tracker admission atomic (the spec's concurrency
contract), an interleaving of N concurrent cost-1 callers is an arbitrary
sequential order of N cost-1 calls within one window.  For every such order
against an empty tracker of capacity C (N ≥ C > 0), exactly C calls are
Admitted and the remaining N - C are Denied: consumption never overshoots
capacity. -/
theorem concurrent_cost1_exactly_capacity_admitted (C w : Nat) (ts : List Nat)
    (hC : 0 < C) (hN : C ≤ ts.length)
    (hwin : ∀ t ∈ ts, ∀ t2 ∈ ts, t < t2 + w) :
    ((runCalls ⟨⟨C, w⟩, []⟩ (ts.map fun t => (t, 1))).1.countP isAdmitted) = C ∧
    ((runCalls ⟨⟨C, w⟩, []⟩ (ts.map fun t => (t, 1))).1.countP
      (fun r => ! isAdmitted r)) = ts.length - C := by
  have hcount := cost1_admitted_count C w hC ts []
    (by intro e he; simp at he) (by intro e he; simp at he) hwin (by simp)
  simp only [List.length_nil, Nat.sub_zero] at hcount
  have hmin : min ts.length C = C := by omega
  rw [hmin] at hcount
  have hsplit := countP_admitted_split (runCalls ⟨⟨C, w⟩, []⟩
    (ts.map fun t => (t, 1))).1
  have hlen : (runCalls ⟨⟨C, w⟩, []⟩ (ts.map fun t => (t, 1))).1.length =
      ts.length := by
    rw [runCalls_length]
    simp
  refine ⟨hcount, ?_⟩
  omega

theorem concurrent_cost1_exactly_capacity_admitted_witness :
    0 < 2 ∧ 2 ≤ [0, 5, 10, 15].length ∧
    (∀ t ∈ [0, 5, 10, 15], ∀ t2 ∈ [0, 5, 10, 15], t < t2 + 1000) ∧
    ((runCalls ⟨⟨2, 1000⟩, []⟩ ([0, 5, 10, 15].map fun t => (t, 1))).1.countP
      isAdmitted) = 2 ∧
    ((runCalls ⟨⟨2, 1000⟩, []⟩ ([0, 5, 10, 15].map fun t => (t, 1))).1.countP
      (fun r => ! isAdmitted r)) = 4 - 2 := by
  refine ⟨by decide, by decide, by decide, ?_⟩
  exact concurrent_cost1_exactly_capacity_admitted 2 1000 [0, 5, 10, 15]
    (by decide) (by decide) (by decide)

theorem runOpsOn_preserves_other (A B : EndpointType) (hAB : A ≠ B) :
    ∀ (ops : List (Nat × Nat)) (rl : RateLimiter),
      (runOpsOn A rl ops).trackers B = rl.trackers B := by
  intro ops
  induction ops with
  | nil => intro rl; rfl
  | cons op rest ih =>
    intro rl
    obtain ⟨n, c⟩ := op
    rw [runOpsOn, ih]
    simp only [check_and_record]
    exact Function.update_noteq (Ne.symm hAB) _ _

/-- C6: exhausting one category never affects another: for distinct categories
A and B, any sequence of operations on A's tracker leaves B's tracker state
untouched, and the admission outcome of a subsequent call on B is the same as
if the operations on A had never happened. -/
theorem category_independence (rl : RateLimiter) (A B : EndpointType)
    (hAB : A ≠ B) (ops : List (Nat × Nat)) (cost now : Nat) :
    (runOpsOn A rl ops).trackers B = rl.trackers B ∧
    (check_and_record (runOpsOn A rl ops) B cost now).1 =
      (check_and_record rl B cost now).1 := by
  have htr := runOpsOn_preserves_other A B hAB ops rl
  refine ⟨htr, ?_⟩
  simp only [check_and_record, htr]

theorem category_independence_witness :
    (EndpointType.orderPlacement ≠ EndpointType.publicMarketData) ∧
    ((runOpsOn .orderPlacement ⟨fun _ => ⟨⟨2, 1000⟩, []⟩⟩
        [(0, 1), (1, 1), (2, 1)]).trackers .publicMarketData =
      (⟨fun _ => ⟨⟨2, 1000⟩, []⟩⟩ : RateLimiter).trackers .publicMarketData ∧
    (check_and_record (runOpsOn .orderPlacement ⟨fun _ => ⟨⟨2, 1000⟩, []⟩⟩
        [(0, 1), (1, 1), (2, 1)]) .publicMarketData 1 5).1 =
      (check_and_record ⟨fun _ => ⟨⟨2, 1000⟩, []⟩⟩ .publicMarketData 1 5).1) :=
  ⟨by decide,
    category_independence ⟨fun _ => ⟨⟨2, 1000⟩, []⟩⟩
      .orderPlacement .publicMarketData (by decide) [(0, 1), (1, 1), (2, 1)] 1 5⟩

/-- C10: `RestResult T` is definitionally `Result<T, Errors>` (embedded as
`Except Errors T`), and a rate-limit denial embeds into the single `Errors`
enumeration through its dedicated variant. -/
theorem restResult_is_result_with_errors :
    (∀ T : Type, RestResult T = Except Errors T) ∧
    Function.Injective Errors.rateLimitExceeded :=
  ⟨fun _ => rfl, fun a b h => by injection h⟩
